import Mathlib

/-!
Verification development for the local-translator repository: the frontend
translation coordinator in src/App.tsx and the Ollama-style streaming wire
decoder of the backend.  All definitions are shallow embeddings of the
corresponding source code (or, where the backend source is not part of the
snapshot, of the specification that describes it).
-/

set_option maxHeartbeats 1000000

/-- Modelled from the spec: a `TokenEvent` is either `Token(text)`, `End` or
`Cancelled`; produced by a wire decoder, consumed by the emission gate. -/
inductive TokenEvent where
  | Token (text : String)
  | End
  | Cancelled
deriving DecidableEq, Repr

/-- Scan a byte (character) sequence for the first newline; if one is found,
return the line before it and the remainder after it (the newline itself is
removed, matching the spec: slice and remove the line including the newline). -/
def splitLine : List Char → Option (List Char × List Char)
  | [] => none
  | c :: cs =>
    if c = '\n' then some ([], cs)
    else
      match splitLine cs with
      | some p => some (c :: p.1, p.2)
      | none => none

/-- Left brace character, written via its code point. -/
def lbrace : Char := Char.ofNat 123

/-- Right brace character, written via its code point. -/
def rbrace : Char := Char.ofNat 125

/-- Drop leading JSON whitespace. -/
def skipWs : List Char → List Char
  | [] => []
  | c :: cs => if c = ' ' ∨ c = '\t' ∨ c = '\n' ∨ c = '\r' then skipWs cs else c :: cs

/-- Value of a hexadecimal digit, if any. -/
def hexVal (c : Char) : Option Nat :=
  if '0' ≤ c ∧ c ≤ '9' then some (c.toNat - 48)
  else if 'a' ≤ c ∧ c ≤ 'f' then some (c.toNat - 87)
  else if 'A' ≤ c ∧ c ≤ 'F' then some (c.toNat - 55)
  else none

/-- Parse the remainder of a JSON string literal (after the opening quote),
handling escape sequences; returns the decoded content and the input after the
closing quote.  The first argument is fuel bounding the recursion. -/
def parseStringRest : Nat → List Char → Option (List Char × List Char)
  | 0, _ => none
  | fuel+1, input =>
    match input with
    | [] => none
    | c :: cs =>
      if c = '"' then some ([], cs)
      else if c = '\\' then
        match cs with
        | [] => none
        | e :: cs' =>
          if e = 'u' then
            match cs' with
            | h1 :: h2 :: h3 :: h4 :: cs'' =>
              match hexVal h1, hexVal h2, hexVal h3, hexVal h4 with
              | some a, some b, some c2, some d =>
                match parseStringRest fuel cs'' with
                | some p => some (Char.ofNat (((a * 16 + b) * 16 + c2) * 16 + d) :: p.1, p.2)
                | none => none
              | _, _, _, _ => none
            | _ => none
          else
            let ec : Char :=
              if e = 'n' then '\n' else if e = 't' then '\t' else if e = 'r' then '\r'
              else if e = 'b' then Char.ofNat 8 else if e = 'f' then Char.ofNat 12 else e
            match parseStringRest fuel cs' with
            | some p => some (ec :: p.1, p.2)
            | none => none
      else
        match parseStringRest fuel cs with
        | some p => some (c :: p.1, p.2)
        | none => none

/-- Character that may occur in a JSON number token. -/
def isNumChar (c : Char) : Bool :=
  c.isDigit || c = '-' || c = '+' || c = '.' || c = 'e' || c = 'E'

/-- Match a literal character sequence, returning the rest of the input. -/
def dropLiteral : List Char → List Char → Option (List Char)
  | [], rest => some rest
  | p :: ps, c :: cs => if c = p then dropLiteral ps cs else none
  | _ :: _, [] => none

/-- Mode for the generic JSON skipper: a whole value, the members of an object
after its opening brace, or the items of an array after its opening bracket. -/
inductive SkipMode where
  | value
  | objRest
  | arrRest
deriving DecidableEq, Repr

/-- Skip over one JSON value (or the rest of an object or array) without
interpreting it; used for the unknown fields the spec says to ignore.  The
first argument is fuel bounding the recursion. -/
def skipJson : Nat → SkipMode → List Char → Option (List Char)
  | 0, _, _ => none
  | fuel+1, SkipMode.value, input =>
    match skipWs input with
    | [] => none
    | c :: rest =>
      if c = '"' then
        match parseStringRest fuel rest with
        | some p => some p.2
        | none => none
      else if c = 't' then dropLiteral ('r' :: 'u' :: 'e' :: []) rest
      else if c = 'f' then dropLiteral ('a' :: 'l' :: 's' :: 'e' :: []) rest
      else if c = 'n' then dropLiteral ('u' :: 'l' :: 'l' :: []) rest
      else if c = lbrace then skipJson fuel SkipMode.objRest rest
      else if c = '[' then skipJson fuel SkipMode.arrRest rest
      else if isNumChar c then some (rest.dropWhile isNumChar)
      else none
  | fuel+1, SkipMode.objRest, input =>
    match skipWs input with
    | [] => none
    | c :: rest =>
      if c = rbrace then some rest
      else if c = '"' then
        match parseStringRest fuel rest with
        | some p =>
          match skipWs p.2 with
          | ':' :: afterColon =>
            match skipJson fuel SkipMode.value afterColon with
            | some afterVal =>
              match skipWs afterVal with
              | ',' :: more => skipJson fuel SkipMode.objRest more
              | c2 :: more => if c2 = rbrace then some more else none
              | [] => none
            | none => none
          | _ => none
        | none => none
      else none
  | fuel+1, SkipMode.arrRest, input =>
    match skipWs input with
    | [] => none
    | c :: rest =>
      if c = ']' then some rest
      else
        match skipJson fuel SkipMode.value (c :: rest) with
        | some afterVal =>
          match skipWs afterVal with
          | ',' :: more => skipJson fuel SkipMode.arrRest more
          | ']' :: more => some more
          | _ => none
        | none => none

/-- Modelled from the spec: parse the members of the line's JSON object (the
input starts just after the opening brace, or just after a comma separating
members), tracking the values of the `response` (string) and `done` (boolean)
fields and skipping unknown fields; succeeds at the closing brace when both
fields were seen, returning them and the input after the brace.  The first
argument is fuel bounding the recursion. -/
def parseOllamaMembers : Nat → List Char → Option String → Option Bool →
    Option (String × Bool × List Char)
  | 0, _, _, _ => none
  | fuel+1, input, resp, dn =>
    match skipWs input with
    | [] => none
    | c :: rest =>
      if c = rbrace then
        match resp, dn with
        | some r, some d => some (r, d, rest)
        | _, _ => none
      else if c = '"' then
        match parseStringRest fuel rest with
        | none => none
        | some keyp =>
          match skipWs keyp.2 with
          | ':' :: afterColon =>
            let keyS := String.mk keyp.1
            if keyS = "response" then
              match skipWs afterColon with
              | '"' :: strRest =>
                match parseStringRest fuel strRest with
                | none => none
                | some valp =>
                  match skipWs valp.2 with
                  | ',' :: more => parseOllamaMembers fuel more (some (String.mk valp.1)) dn
                  | c2 :: more =>
                    if c2 = rbrace then
                      match some (String.mk valp.1), dn with
                      | some r, some d => some (r, d, more)
                      | _, _ => none
                    else none
                  | [] => none
              | _ => none
            else if keyS = "done" then
              match skipWs afterColon with
              | 't' :: more1 =>
                match dropLiteral ('r' :: 'u' :: 'e' :: []) more1 with
                | none => none
                | some afterVal =>
                  match skipWs afterVal with
                  | ',' :: more => parseOllamaMembers fuel more resp (some true)
                  | c2 :: more =>
                    if c2 = rbrace then
                      match resp with
                      | some r => some (r, true, more)
                      | none => none
                    else none
                  | [] => none
              | 'f' :: more1 =>
                match dropLiteral ('a' :: 'l' :: 's' :: 'e' :: []) more1 with
                | none => none
                | some afterVal =>
                  match skipWs afterVal with
                  | ',' :: more => parseOllamaMembers fuel more resp (some false)
                  | c2 :: more =>
                    if c2 = rbrace then
                      match resp with
                      | some r => some (r, false, more)
                      | none => none
                    else none
                  | [] => none
              | _ => none
            else
              match skipJson fuel SkipMode.value afterColon with
              | none => none
              | some afterVal =>
                match skipWs afterVal with
                | ',' :: more => parseOllamaMembers fuel more resp dn
                | c2 :: more =>
                  if c2 = rbrace then
                    match resp, dn with
                    | some r, some d => some (r, d, more)
                    | _, _ => none
                  else none
                | [] => none
          | _ => none
      else none

/-- Modelled from the spec: parse one complete line of the Ollama NDJSON wire
format as a JSON object with fields `response : string` and `done : boolean`,
ignoring unknown fields; `none` when the line is not such an object (the
decoder then skips the line and continues). -/
def parseOllamaLine (line : List Char) : Option (String × Bool) :=
  match skipWs line with
  | c :: rest =>
    if c = lbrace then
      match parseOllamaMembers (line.length + 1) rest none none with
      | some (r, d, trailing) =>
        if (skipWs trailing).isEmpty then some (r, d) else none
      | none => none
    else none
  | [] => none

/-- Result of draining the accumulator: the remaining buffered bytes, whether a
line with `done = true` was consumed, and the events emitted. -/
structure DrainResult where
  buf : List Char
  done : Bool
  events : List TokenEvent
deriving DecidableEq, Repr

/-- Modelled from the spec: repeatedly scan the accumulator for a newline;
slice and remove each complete line; a line parsing as `(resp, false)` emits
`Token resp`, a line parsing as `(_, true)` emits `End` and stops consuming
further input, an unparseable line emits nothing and decoding continues.  The
first argument is fuel; one unit is spent per removed line, so the number of
newlines in the buffer is always enough. -/
def drainF : Nat → List Char → DrainResult
  | 0, buf => ⟨buf, false, []⟩
  | fuel+1, buf =>
    match splitLine buf with
    | none => ⟨buf, false, []⟩
    | some p =>
      match parseOllamaLine p.1 with
      | none => drainF fuel p.2
      | some (_, true) => ⟨p.2, true, [TokenEvent.End]⟩
      | some (resp, false) =>
        let r := drainF fuel p.2
        ⟨r.buf, r.done, TokenEvent.Token resp :: r.events⟩

/-- Drain all complete lines currently in the accumulator. -/
def drain (buf : List Char) : DrainResult := drainF (buf.count '\n') buf

/-- Modelled from the spec: the decoder state between two received chunks is
the byte-buffer accumulator plus whether a `done = true` line has been seen. -/
structure OllamaState where
  buf : List Char
  done : Bool
deriving DecidableEq, Repr

/-- Initial decoder state: empty accumulator, not done. -/
def initOllama : OllamaState := ⟨[], false⟩

/-- Modelled from the spec: append the received chunk to the accumulator and
drain; once a `done = true` line has been seen the decoder stops consuming
further input and emits nothing. -/
def feed (s : OllamaState) (chunk : List Char) : OllamaState × List TokenEvent :=
  if s.done then (⟨s.buf ++ chunk, true⟩, [])
  else
    let r := drain (s.buf ++ chunk)
    (⟨r.buf, r.done⟩, r.events)

/-- Feed a list of chunks in order, concatenating the emitted events. -/
def feedAll (s : OllamaState) : List (List Char) → OllamaState × List TokenEvent
  | [] => (s, [])
  | c :: cs =>
    let p := feed s c
    let q := feedAll p.1 cs
    (q.1, p.2 ++ q.2)

/-- Modelled from the spec: decode a whole response body delivered as the given
chunks; at end of transport, emit `End` if no `done : true` line was seen
(EOF is treated as completion). -/
def decodeOllama (chunks : List (List Char)) : List TokenEvent :=
  let p := feedAll initOllama chunks
  p.2 ++ (if p.1.done then [] else [TokenEvent.End])

/-- Whitespace as recognized by JavaScript's `\s` and `String.prototype.trim`:
ASCII whitespace plus the Unicode space separators used by JS engines. -/
def jsWhitespace (c : Char) : Bool :=
  c = ' ' || c = '\t' || c = '\n' || c = '\r' ||
  c.toNat = 11 || c.toNat = 12 || c.toNat = 160 || c.toNat = 5760 ||
  (8192 ≤ c.toNat && c.toNat ≤ 8202) || c.toNat = 8232 || c.toNat = 8233 ||
  c.toNat = 8239 || c.toNat = 8287 || c.toNat = 12288 || c.toNat = 65279

/-- JavaScript `String.prototype.trim`: drop leading and trailing whitespace. -/
def jsTrim (s : String) : String :=
  String.mk (((s.data.dropWhile jsWhitespace).reverse.dropWhile jsWhitespace).reverse)

/-- Lower-case an ASCII letter (JavaScript regex `i` flag on the Latin parts of
the not-applicable patterns). -/
def lowerAscii (c : Char) : Char :=
  if 'A' ≤ c ∧ c ≤ 'Z' then Char.ofNat (c.toNat + 32) else c

/-- Match the tail of the NA regex after an alternative: optional period, then
any whitespace, then end of input. -/
def matchEnd (l : List Char) : Bool :=
  match l with
  | '.' :: cs => cs.all jsWhitespace
  | _ => l.all jsWhitespace

/-- Strip a literal pattern (given in lower case) from the input, comparing
case-insensitively on ASCII letters; returns the rest on success. -/
def dropPatCI : List Char → List Char → Option (List Char)
  | [], s => some s
  | _ :: _, [] => none
  | p :: ps, c :: cs => if lowerAscii c = p then dropPatCI ps cs else none

/-- Try one exact NA alternative at the current position, then the regex tail. -/
def tryExact (pat : String) (s : List Char) : Bool :=
  match dropPatCI pat.data s with
  | some tail => matchEnd tail
  | none => false

/-- Scan for the templated alternatives `No .+ found` / `No .+ detected`: after
the `no ` prefix, at least one middle character (the regex dot excludes the
four line terminators U+000A, U+000D, U+2028 and U+2029), then the literal
suffix, then the regex tail; every possible split of the middle is tried, as
regex backtracking would. -/
def scanMid (sfx : List Char) : List Char → Bool
  | [] => false
  | c :: cs =>
    if c = '\n' || c = '\r' || c.toNat = 8232 || c.toNat = 8233 then false
    else
      (match dropPatCI sfx cs with
       | some tail => matchEnd tail
       | none => false) ||
      scanMid sfx cs

/-- Try a templated NA alternative `pre` + `.+` + `sfx`. -/
def tryTemplate (pre sfx : String) (s : List Char) : Bool :=
  match dropPatCI pre.data s with
  | some rest => scanMid sfx.data rest
  | none => false

/-- The NA_PATTERNS regular expression of App.tsx, applied to a whole line:
optional `-` or `*` bullet, optional whitespace, one of the not-applicable
alternatives, optional period, optional whitespace, end of line;
case-insensitive. -/
def naLineTest (l : String) : Bool :=
  let s := l.data
  let s1 := match s with
            | c :: cs => if c = '-' || c = '*' then cs else s
            | [] => s
  let s2 := s1.dropWhile jsWhitespace
  tryExact "該当なし" s2 || tryExact "特にありません" s2 || tryExact "特になし" s2 ||
  tryExact "なし" s2 || tryExact "ありません" s2 ||
  tryExact "n/a" s2 || tryExact "na" s2 || tryExact "none" s2 ||
  tryTemplate "no " " found" s2 || tryTemplate "no " " detected" s2

/-- JavaScript `markdown.split("\n")` on the character list: the maximal
newline-free segments, with empty segments preserved. -/
def splitNLAux : List Char → List (List Char)
  | [] => [[]]
  | c :: cs =>
    let r := splitNLAux cs
    if c = '\n' then [] :: r
    else
      match r with
      | [] => [[c]]
      | l :: ls => (c :: l) :: ls

/-- JavaScript `markdown.split("\n")` producing strings. -/
def splitNL (s : String) : List String := (splitNLAux s.data).map String.mk

/-- JavaScript `lines.join("\n")`. -/
def joinNL : List String → String
  | [] => ""
  | [l] => l
  | l :: ls => l ++ "\n" ++ joinNL ls

/-- The heading test `/^##\s+/` of App.tsx: two `#` followed by whitespace. -/
def isHeading (l : String) : Bool :=
  match l.data with
  | '#' :: '#' :: c :: _ => jsWhitespace c
  | _ => false

/-- A content line is blank when it trims to the empty string. -/
def isBlankLine (x : String) : Bool := jsTrim x == ""

/-- A content line counts as not-applicable when its trimmed text matches the
NA patterns. -/
def naContent (x : String) : Bool := naLineTest (jsTrim x)

/-- The inner while loop of `filterEmptySections`: collect the lines of the
current section up to (but excluding) the next `##` heading, returning them
and the remaining lines. -/
def collectSection : List String → List String × List String
  | [] => ([], [])
  | l :: ls =>
    if isHeading l then ([], l :: ls)
    else
      let r := collectSection ls
      (l :: r.1, r.2)

/-- The outer while loop of `filterEmptySections` (App.tsx lines 180-198): a
non-heading line is pushed to the result; a heading starts a section whose
lines are collected, and the heading and section are kept only when some
content line is neither blank nor not-applicable.  The first argument is fuel
bounding the number of loop iterations; the total number of lines is always
enough. -/
def filterLoop : Nat → List String → List String
  | 0, _ => []
  | _+1, [] => []
  | fuel+1, l :: ls =>
    if isHeading l then
      let p := collectSection ls
      let content := p.1.filter (fun x => !(isBlankLine x))
      let allNA := (content.length == 0) || content.all naContent
      (if allNA then [] else l :: p.1) ++ filterLoop fuel p.2
    else l :: filterLoop fuel ls

/-- The function `filterEmptySections` of App.tsx: split into lines, run the
filtering loop, join with newlines and trim the result. -/
def filterEmptySections (markdown : String) : String :=
  let lines := splitNL markdown
  jsTrim (joinNL (filterLoop lines.length lines))

/-- Spec-side view of a document for the claim about `filterEmptySections`:
the lines before the first `##` heading, and the list of sections, each a
heading line with its body lines. -/
def sectionsOf : List String → List String × List (String × List String)
  | [] => ([], [])
  | l :: ls =>
    let r := sectionsOf ls
    if isHeading l then ([], (l, r.1) :: r.2) else (l :: r.1, r.2)

/-- Spec-side removability, following the claim's words: a section is removed
exactly when its non-blank content lines all match the not-applicable
patterns (vacuously, when it has no non-blank content). -/
def sectionRemovable (body : List String) : Bool :=
  (body.filter (fun x => !(isBlankLine x))).all naContent

/-- Spec-side contribution of one section: dropped when removable, otherwise
its heading and body unchanged. -/
def keepSec (sec : String × List String) : List String :=
  if sectionRemovable sec.2 then [] else sec.1 :: sec.2

/-- Spec-side declarative description from the claim: preserve every line
before the first `##` heading and every section with at least one substantive
line, in their original order, removing exactly the all-not-applicable
sections. -/
def keepSections (lines : List String) : List String :=
  (sectionsOf lines).1 ++ ((sectionsOf lines).2.map keepSec).flatten

/-- The provider union type of App.tsx (`"ollama" | "lmstudio"`). -/
inductive Provider where
  | ollama
  | lmstudio
deriving DecidableEq, Repr

/-- The `Settings` interface of App.tsx. -/
structure Settings where
  provider : Provider
  endpoint : String
  model : String
  targetLang : String
  shortcut : String
deriving DecidableEq, Repr

/-- The request object built by `handleTranslate` for the `translate` command. -/
structure TranslateRequest where
  text : String
  source_lang : String
  target_lang : String
  provider : Provider
  endpoint : String
  model : String
deriving DecidableEq, Repr

/-- The `TranslateResponse` interface of App.tsx: final translated text plus a
nullable detected-language hint. -/
structure TranslateResponse where
  translated_text : String
  detected_lang : Option String
deriving DecidableEq, Repr

/-- The request object built by `handleExplain` for the `explain` command. -/
structure ExplainRequest where
  source_text : String
  source_lang : String
  target_lang : String
  provider : Provider
  endpoint : String
  model : String
deriving DecidableEq, Repr

/-- The `HistoryItem` interface of App.tsx. -/
structure HistoryItem where
  id : String
  sourceText : String
  translatedText : String
  targetLang : String
  timestamp : Nat
deriving DecidableEq, Repr

/-- The explanation cache entry held in `explanationCacheRef`. -/
structure ExplanationCache where
  source : String
  explanation : String
deriving DecidableEq, Repr

/-- Backend commands the cancel handlers invoke. -/
inductive BackendCmd where
  | cancelTranslation
  | cancelExplanation
deriving DecidableEq, Repr

/-- The React state of the App component (App.tsx lines 204-237, 266), with
each `useState` / `useRef` cell as a field. -/
structure AppState where
  sourceText : String
  translatedText : String
  isLoading : Bool
  error : Option String
  showSettings : Bool
  settings : Settings
  isCapturingShortcut : Bool
  history : List HistoryItem
  showHistory : Bool
  explanationText : String
  isExplanationOpen : Bool
  isExplanationLoading : Bool
  explanationError : Option String
  isCancelling : Bool
  isExplanationCancelling : Bool
  explanationCache : Option ExplanationCache
  pendingTranslate : Bool
deriving DecidableEq, Repr

/-- The `translation-chunk` listener (App.tsx lines 364-372): append the
payload to the displayed translated text. -/
def onTranslationChunk (s : AppState) (payload : String) : AppState :=
  { s with translatedText := s.translatedText ++ payload }

/-- The `explanation-chunk` listener (App.tsx lines 375-383). -/
def onExplanationChunk (s : AppState) (payload : String) : AppState :=
  { s with explanationText := s.explanationText ++ payload }

/-- Message stored by the `translation-cancelled` listener. -/
def cancelMessage : String := "翻訳がキャンセルされました"

/-- Message stored by the `explanation-cancelled` listener. -/
def explanationCancelMessage : String := "解説がキャンセルされました"

/-- The `translation-cancelled` listener (App.tsx lines 386-396). -/
def onTranslationCancelled (s : AppState) : AppState :=
  { s with isLoading := false, isCancelling := false, error := some cancelMessage }

/-- The `explanation-cancelled` listener (App.tsx lines 399-409). -/
def onExplanationCancelled (s : AppState) : AppState :=
  { s with isExplanationLoading := false, isExplanationCancelling := false,
           explanationError := some explanationCancelMessage }

/-- The error banner of the main page (App.tsx lines 789-796): rendered with
the stored error text exactly when `error` is truthy. -/
def errorBanner (s : AppState) : Option String :=
  match s.error with
  | some e => if e = "" then none else some e
  | none => none

/-- The catch branch of `handleTranslate` (App.tsx lines 356-360) together
with its finally branch: a transport or protocol failure stores the error
text in the shared error state and clears the loading flag. -/
def handleTranslateFailure (s : AppState) (e : String) : AppState :=
  { s with error := some e, isLoading := false }

/-- The `translate-selection` listener (App.tsx lines 476-489): when the
payload is truthy and trims non-empty, install it as the source text, leave
the settings page and flag a pending automatic translation; otherwise do
nothing. -/
def onTranslateSelection (s : AppState) (payload : String) : AppState :=
  if payload ≠ "" ∧ jsTrim payload ≠ "" then
    { s with sourceText := payload, showSettings := false, pendingTranslate := true }
  else s

/-- The auto-translate effect (App.tsx lines 492-497): when a translation is
pending and the source text trims non-empty, clear the flag and hand the
source text to `handleTranslate`; the second component is the text passed to
`handleTranslate`, if any. -/
def autoTranslateEffect (s : AppState) : AppState × Option String :=
  if s.pendingTranslate = true ∧ jsTrim s.sourceText ≠ "" then
    ({ s with pendingTranslate := false }, some s.sourceText)
  else (s, none)

/-- The text chosen by `handleTranslate` (App.tsx line 330):
`textToTranslate || sourceText`, with JavaScript falsiness of the empty
string. -/
def chooseTranslateText (textToTranslate : Option String) (s : AppState) : String :=
  match textToTranslate with
  | some t => if t = "" then s.sourceText else t
  | none => s.sourceText

/-- The request built by `handleTranslate` (App.tsx lines 342-351). -/
def buildTranslateRequest (text : String) (st : Settings) : TranslateRequest :=
  { text := text, source_lang := "auto", target_lang := st.targetLang,
    provider := st.provider, endpoint := st.endpoint, model := st.model }

/-- The synchronous start of `handleTranslate` (App.tsx lines 329-351): guard
on the trimmed chosen text, reset the translation and explanation state, and
issue the request; `none` when the guard fails and nothing happens. -/
def handleTranslateStart (textToTranslate : Option String) (s : AppState) :
    AppState × Option TranslateRequest :=
  let text := chooseTranslateText textToTranslate s
  if jsTrim text = "" then (s, none)
  else
    ({ s with isLoading := true, error := none, translatedText := "",
              explanationText := "", isExplanationOpen := false,
              explanationError := none, explanationCache := none },
     some (buildTranslateRequest text s.settings))

/-- The history item built by `addToHistory` (App.tsx lines 319-325), with
`Date.now()` passed in as `nowMs`. -/
def mkHistoryItem (nowMs : Nat) (sourceText translatedText targetLang : String) :
    HistoryItem :=
  { id := toString nowMs, sourceText := sourceText, translatedText := translatedText,
    targetLang := targetLang, timestamp := nowMs }

/-- The state update of `addToHistory` (App.tsx line 326): prepend the new
item and keep at most 50 entries. -/
def addToHistory (history : List HistoryItem) (item : HistoryItem) : List HistoryItem :=
  (item :: history).take 50

/-- The completion path of `handleTranslate` (App.tsx lines 352-360): record
the translation in the history only when the returned text trims non-empty,
then clear the loading flag. -/
def handleTranslateComplete (nowMs : Nat) (text : String) (s : AppState)
    (resp : TranslateResponse) : AppState :=
  let s1 := if jsTrim resp.translated_text ≠ "" then
              { s with history := addToHistory s.history
                         (mkHistoryItem nowMs text resp.translated_text s.settings.targetLang) }
            else s
  { s1 with isLoading := false }

/-- Outcome of the `update_shortcut` invocation in the capture handler
(App.tsx lines 309-311): on success, store the new accelerator string in the
settings; on failure, leave the settings untouched and report the error. -/
def onShortcutUpdateResult (s : AppState) (shortcutStr : String)
    (result : Except String Unit) : AppState :=
  match result with
  | Except.ok _ => { s with settings := { s.settings with shortcut := shortcutStr } }
  | Except.error err =>
      { s with error := some ("ショートカットの設定に失敗しました: " ++ err) }

/-- The request-issuing branch of `handleExplain` (App.tsx lines 420-434). -/
def handleExplainIssue (s : AppState) : AppState × Option ExplainRequest :=
  ({ s with isExplanationLoading := true, explanationError := none, explanationText := "" },
   some { source_text := s.sourceText, source_lang := "auto",
          target_lang := s.settings.targetLang, provider := s.settings.provider,
          endpoint := s.settings.endpoint, model := s.settings.model })

/-- The synchronous part of `handleExplain` (App.tsx lines 411-434): when the
cached explanation is for the current source text, redisplay it and issue no
request; otherwise reset the explanation state and issue an `explain`
request. -/
def handleExplain (s : AppState) : AppState × Option ExplainRequest :=
  match s.explanationCache with
  | some c =>
    if c.source = s.sourceText then ({ s with explanationText := c.explanation }, none)
    else handleExplainIssue s
  | none => handleExplainIssue s

/-- The `handleCancelTranslation` callback (App.tsx lines 455-463): set the
cancelling flag, invoke `cancel_translation`, and reset the flag if the
invocation fails. -/
def handleCancelTranslation (s : AppState) (invokeOk : Bool) : AppState × BackendCmd :=
  ((if invokeOk then { s with isCancelling := true } else { s with isCancelling := false }),
   BackendCmd.cancelTranslation)

/-- The `handleCancelExplanation` callback (App.tsx lines 465-473). -/
def handleCancelExplanation (s : AppState) (invokeOk : Bool) : AppState × BackendCmd :=
  ((if invokeOk then { s with isExplanationCancelling := true }
    else { s with isExplanationCancelling := false }),
   BackendCmd.cancelExplanation)

/-- The default settings of App.tsx (non-mac branch). -/
def sampleSettings : Settings :=
  { provider := Provider.ollama, endpoint := "http://localhost:11434",
    model := "llama3", targetLang := "Japanese", shortcut := "Ctrl+Alt+L" }

/-- A concrete initial UI state, used by the witnesses. -/
def sampleState : AppState :=
  { sourceText := "", translatedText := "", isLoading := false, error := none,
    showSettings := false, settings := sampleSettings, isCapturingShortcut := false,
    history := [], showHistory := false, explanationText := "",
    isExplanationOpen := false, isExplanationLoading := false,
    explanationError := none, isCancelling := false,
    isExplanationCancelling := false, explanationCache := none,
    pendingTranslate := false }

/-- A concrete UI state holding a cached explanation for its source text. -/
def cachedState : AppState :=
  { sampleState with sourceText := "hola",
                     explanationCache := some ⟨"hola", "greeting"⟩ }

/-! Helper lemmas about `splitLine`. -/

theorem splitLine_eq_some (l : List Char) :
    ∀ a b, splitLine l = some (a, b) → l = a ++ '\n' :: b ∧ a.count '\n' = 0 := by
  induction l with
  | nil => intro a b h; simp [splitLine] at h
  | cons c cs ih =>
    intro a b h
    by_cases hc : c = '\n'
    · subst hc
      simp [splitLine] at h
      obtain ⟨ha, hb⟩ := h
      subst ha; subst hb
      simp
    · simp [splitLine, hc] at h
      cases hp : splitLine cs with
      | none => rw [hp] at h; simp at h
      | some p =>
        rw [hp] at h
        simp at h
        obtain ⟨ha, hb⟩ := h
        obtain ⟨h1, h2⟩ := ih p.1 p.2 (by rw [hp])
        subst ha; subst hb
        constructor
        · rw [List.cons_append]; rw [← h1]
        · simp [List.count_cons, h2, hc]

theorem splitLine_none_count (l : List Char) (h : splitLine l = none) :
    l.count '\n' = 0 := by
  induction l with
  | nil => simp
  | cons c cs ih =>
    by_cases hc : c = '\n'
    · subst hc; simp [splitLine] at h
    · simp [splitLine, hc] at h
      cases hp : splitLine cs with
      | none => simp [List.count_cons, hc, ih hp]
      | some p => rw [hp] at h; simp at h

theorem splitLine_of_count_zero (l : List Char) (h : l.count '\n' = 0) :
    splitLine l = none := by
  cases hp : splitLine l with
  | none => rfl
  | some p =>
    obtain ⟨h1, _⟩ := splitLine_eq_some l p.1 p.2 (by rw [hp])
    rw [h1] at h
    simp [List.count_append, List.count_cons] at h

theorem splitLine_count_succ (l : List Char) (a b : List Char)
    (h : splitLine l = some (a, b)) : l.count '\n' = b.count '\n' + 1 := by
  obtain ⟨h1, h2⟩ := splitLine_eq_some l a b h
  rw [h1]
  simp [List.count_append, List.count_cons, h2]

theorem splitLine_append_some (a : List Char) :
    ∀ b l r, splitLine a = some (l, r) → splitLine (a ++ b) = some (l, r ++ b) := by
  induction a with
  | nil => intro b l r h; simp [splitLine] at h
  | cons c cs ih =>
    intro b l r h
    by_cases hc : c = '\n'
    · subst hc
      simp [splitLine] at h ⊢
      obtain ⟨h1, h2⟩ := h
      subst h1; subst h2
      exact ⟨rfl, rfl⟩
    · simp [splitLine, hc] at h ⊢
      cases hp : splitLine cs with
      | none => rw [hp] at h; simp at h
      | some p =>
        rw [hp] at h
        simp at h
        obtain ⟨h1, h2⟩ := h
        rw [ih b p.1 p.2 (by rw [hp])]
        simp [← h1, ← h2]

theorem splitLine_append_none_none (a b : List Char) (ha : splitLine a = none)
    (hb : splitLine b = none) : splitLine (a ++ b) = none := by
  apply splitLine_of_count_zero
  simp [List.count_append, splitLine_none_count a ha, splitLine_none_count b hb]

theorem splitLine_append_none_some (a : List Char) :
    ∀ b l r, splitLine a = none → splitLine b = some (l, r) →
      splitLine (a ++ b) = some (a ++ l, r) := by
  induction a with
  | nil => intro b l r _ hb; simpa using hb
  | cons c cs ih =>
    intro b l r ha hb
    by_cases hc : c = '\n'
    · subst hc; simp [splitLine] at ha
    · simp [splitLine, hc] at ha ⊢
      cases hp : splitLine cs with
      | none =>
        rw [ih b l r hp hb]
      | some p => rw [hp] at ha; simp at ha

/-! Helper lemmas about `drain`. -/

theorem drain_eq_none (buf : List Char) (h : splitLine buf = none) :
    drain buf = ⟨buf, false, []⟩ := by
  have hc : buf.count '\n' = 0 := splitLine_none_count buf h
  rw [drain, hc]
  simp [drainF]

theorem drain_eq_skip (buf line rest : List Char)
    (hs : splitLine buf = some (line, rest)) (hp : parseOllamaLine line = none) :
    drain buf = drain rest := by
  have hc := splitLine_count_succ buf line rest hs
  rw [drain, hc]
  simp only [drainF, hs, hp]
  rfl

theorem drain_eq_done (buf line rest : List Char) (resp : String)
    (hs : splitLine buf = some (line, rest))
    (hp : parseOllamaLine line = some (resp, true)) :
    drain buf = ⟨rest, true, [TokenEvent.End]⟩ := by
  have hc := splitLine_count_succ buf line rest hs
  rw [drain, hc]
  simp only [drainF, hs, hp]

theorem drain_eq_token (buf line rest : List Char) (resp : String)
    (hs : splitLine buf = some (line, rest))
    (hp : parseOllamaLine line = some (resp, false)) :
    drain buf = ⟨(drain rest).buf, (drain rest).done,
                 TokenEvent.Token resp :: (drain rest).events⟩ := by
  have hc := splitLine_count_succ buf line rest hs
  rw [drain, hc]
  simp only [drainF, hs, hp]
  rfl

theorem drainF_not_done (fuel : Nat) :
    ∀ buf : List Char, buf.count '\n' ≤ fuel → (drainF fuel buf).done = false →
      splitLine ((drainF fuel buf).buf) = none := by
  induction fuel with
  | zero =>
    intro buf hc _
    exact splitLine_of_count_zero buf (Nat.le_zero.mp hc)
  | succ m ih =>
    intro buf hc hd
    cases hs : splitLine buf with
    | none => simp only [drainF, hs]
    | some p =>
      have hcount := splitLine_count_succ buf p.1 p.2 (by rw [hs])
      have hrest : p.2.count '\n' ≤ m := by omega
      cases hp : parseOllamaLine p.1 with
      | none =>
        simp only [drainF, hs, hp] at hd ⊢
        exact ih p.2 hrest hd
      | some q =>
        cases hb : q.2 with
        | true =>
          have : q = (q.1, true) := by rw [← hb]
          rw [this] at hp
          simp [drainF, hs, hp] at hd
        | false =>
          have : q = (q.1, false) := by rw [← hb]
          rw [this] at hp
          simp only [drainF, hs, hp] at hd ⊢
          exact ih p.2 hrest hd

theorem drain_not_done (buf : List Char) (hd : (drain buf).done = false) :
    splitLine ((drain buf).buf) = none :=
  drainF_not_done (buf.count '\n') buf (Nat.le_refl _) hd

theorem drain_append_aux (n : Nat) :
    ∀ x y : List Char, x.length ≤ n →
      ((drain x).done = true →
        drain (x ++ y) = ⟨(drain x).buf ++ y, true, (drain x).events⟩) ∧
      ((drain x).done = false →
        drain (x ++ y) = ⟨(drain ((drain x).buf ++ y)).buf,
                          (drain ((drain x).buf ++ y)).done,
                          (drain x).events ++ (drain ((drain x).buf ++ y)).events⟩) := by
  induction n with
  | zero =>
    intro x y hn
    have hx : x = [] := List.eq_nil_of_length_eq_zero (Nat.le_zero.mp hn)
    subst hx
    have h0 : drain [] = ⟨[], false, []⟩ := drain_eq_none [] rfl
    constructor
    · intro hd; rw [h0] at hd; simp at hd
    · intro _; rw [h0]; simp
  | succ m ih =>
    intro x y hn
    cases hs : splitLine x with
    | none =>
      have hx : drain x = ⟨x, false, []⟩ := drain_eq_none x hs
      constructor
      · intro hd; rw [hx] at hd; simp at hd
      · intro _; rw [hx]; simp
    | some p =>
      obtain ⟨hdecomp, -⟩ := splitLine_eq_some x p.1 p.2 (by rw [hs])
      have hlen : p.2.length ≤ m := by
        have : x.length = p.1.length + 1 + p.2.length := by
          rw [hdecomp]; simp [List.length_append]; omega
        omega
      have hs' : splitLine (x ++ y) = some (p.1, p.2 ++ y) :=
        splitLine_append_some x y p.1 p.2 (by rw [hs])
      cases hp : parseOllamaLine p.1 with
      | none =>
        have e1 : drain x = drain p.2 := drain_eq_skip x p.1 p.2 (by rw [hs]) hp
        have e2 : drain (x ++ y) = drain (p.2 ++ y) :=
          drain_eq_skip (x ++ y) p.1 (p.2 ++ y) hs' hp
        rw [e1, e2]
        exact ih p.2 y hlen
      | some q =>
        cases hb : q.2 with
        | true =>
          have hq : q = (q.1, true) := by rw [← hb]
          rw [hq] at hp
          have e1 : drain x = ⟨p.2, true, [TokenEvent.End]⟩ :=
            drain_eq_done x p.1 p.2 q.1 (by rw [hs]) hp
          have e2 : drain (x ++ y) = ⟨p.2 ++ y, true, [TokenEvent.End]⟩ :=
            drain_eq_done (x ++ y) p.1 (p.2 ++ y) q.1 hs' hp
          constructor
          · intro _; rw [e1, e2]
          · intro hd; rw [e1] at hd; simp at hd
        | false =>
          have hq : q = (q.1, false) := by rw [← hb]
          rw [hq] at hp
          have e1 : drain x = ⟨(drain p.2).buf, (drain p.2).done,
              TokenEvent.Token q.1 :: (drain p.2).events⟩ :=
            drain_eq_token x p.1 p.2 q.1 (by rw [hs]) hp
          have e2 : drain (x ++ y) = ⟨(drain (p.2 ++ y)).buf, (drain (p.2 ++ y)).done,
              TokenEvent.Token q.1 :: (drain (p.2 ++ y)).events⟩ :=
            drain_eq_token (x ++ y) p.1 (p.2 ++ y) q.1 hs' hp
          obtain ⟨ihT, ihF⟩ := ih p.2 y hlen
          constructor
          · intro hd
            rw [e1] at hd
            simp at hd
            rw [e2, ihT hd, e1]
          · intro hd
            rw [e1] at hd
            simp at hd
            rw [e2, ihF hd, e1]
            simp

theorem drain_append_done (x y : List Char) (hd : (drain x).done = true) :
    drain (x ++ y) = ⟨(drain x).buf ++ y, true, (drain x).events⟩ :=
  (drain_append_aux x.length x y (Nat.le_refl _)).1 hd

theorem drain_append_not_done (x y : List Char) (hd : (drain x).done = false) :
    drain (x ++ y) = ⟨(drain ((drain x).buf ++ y)).buf,
                      (drain ((drain x).buf ++ y)).done,
                      (drain x).events ++ (drain ((drain x).buf ++ y)).events⟩ :=
  (drain_append_aux x.length x y (Nat.le_refl _)).2 hd

/-! Lemmas about `feed` and `feedAll`. -/

theorem feed_append (s : OllamaState) (a b : List Char) :
    feed s (a ++ b) = ((feed (feed s a).1 b).1, (feed s a).2 ++ (feed (feed s a).1 b).2) := by
  by_cases hd : s.done = true
  · simp [feed, hd, List.append_assoc]
  · simp only [Bool.not_eq_true] at hd
    by_cases hx : (drain (s.buf ++ a)).done = true
    · have h1 : drain (s.buf ++ (a ++ b)) =
          ⟨(drain (s.buf ++ a)).buf ++ b, true, (drain (s.buf ++ a)).events⟩ := by
        rw [← List.append_assoc]
        exact drain_append_done (s.buf ++ a) b hx
      simp [feed, hd, hx, h1]
    · simp only [Bool.not_eq_true] at hx
      have h1 : drain (s.buf ++ (a ++ b)) =
          ⟨(drain ((drain (s.buf ++ a)).buf ++ b)).buf,
           (drain ((drain (s.buf ++ a)).buf ++ b)).done,
           (drain (s.buf ++ a)).events ++ (drain ((drain (s.buf ++ a)).buf ++ b)).events⟩ := by
        rw [← List.append_assoc]
        exact drain_append_not_done (s.buf ++ a) b hx
      simp [feed, hd, hx, h1]

/-- A decoder state is reachable when it is done or its accumulator holds no
complete line. -/
def GoodState (s : OllamaState) : Prop := s.done = true ∨ splitLine s.buf = none

theorem goodState_init : GoodState initOllama := Or.inr rfl

theorem feed_good (s : OllamaState) (c : List Char) : GoodState (feed s c).1 := by
  by_cases hd : s.done = true
  · left; simp [feed, hd]
  · simp only [Bool.not_eq_true] at hd
    by_cases hx : (drain (s.buf ++ c)).done = true
    · left; simp [feed, hd, hx]
    · simp only [Bool.not_eq_true] at hx
      right
      simp only [feed, hd]
      simpa [hx] using drain_not_done (s.buf ++ c) hx

theorem feed_nil (s : OllamaState) (hs : GoodState s) : feed s [] = (s, []) := by
  obtain ⟨b, d⟩ := s
  by_cases hd : d = true
  · subst hd; simp [feed]
  · simp only [Bool.not_eq_true] at hd
    subst hd
    cases hs with
    | inl h => simp at h
    | inr h =>
      simp only at h
      have hb : drain (b ++ []) = ⟨b, false, []⟩ := by
        rw [List.append_nil]; exact drain_eq_none b h
      simp [feed, hb, drain_eq_none b h]

theorem feedAll_eq_feed (chunks : List (List Char)) :
    ∀ s : OllamaState, GoodState s → feedAll s chunks = feed s chunks.flatten := by
  induction chunks with
  | nil =>
    intro s hs
    simp only [feedAll, List.flatten_nil]
    exact (feed_nil s hs).symm
  | cons c cs ih =>
    intro s hs
    have hg := feed_good s c
    have hq := ih (feed s c).1 hg
    simp only [feedAll, hq, List.flatten_cons]
    exact (feed_append s c cs.flatten).symm

/-- Claim C2: for every response body and every way of splitting its bytes at
arbitrary offsets into any number of delivery chunks, the Ollama wire decoder
produces the identical ordered sequence of token events (tokens in order,
followed by the same terminal `End`) as when the whole body is delivered in
one chunk.  Proved for all byte sequences, in particular every valid
Ollama-style response body. -/
theorem ollama_chunk_invariance (chunks : List (List Char)) :
    decodeOllama chunks = decodeOllama [chunks.flatten] := by
  have h1 := feedAll_eq_feed chunks initOllama goodState_init
  have h2 := feedAll_eq_feed [chunks.flatten] initOllama goodState_init
  simp only [decodeOllama, h1, h2, List.flatten_cons, List.flatten_nil, List.append_nil]

/-- Claim C1: contrary to the claim, the `translation-cancelled` listener
stores its message in the same `error` state that transport and protocol
failures use (the catch branch of `handleTranslate`), and the shared
`neu-error` banner renders it; the cancellation notification is not delivered
through a distinct channel.  This contradicts the spec and the repository's
own CLAUDE.md, which promise a neutral informational message. -/
theorem cancellation_shares_error_channel (s : AppState) (e : String) :
    (onTranslationCancelled s).error = some cancelMessage ∧
    errorBanner (onTranslationCancelled s) = some cancelMessage ∧
    (handleTranslateFailure s e).error = some e := by
  refine ⟨rfl, ?_, rfl⟩
  simp [errorBanner, onTranslationCancelled, cancelMessage]

/-- Claim C3: a `translate-selection` payload that trims to empty changes no
state (hence re-runs no effect and triggers no translation, and even a stale
pending flag set to false yields no translation), while a payload that trims
non-empty installs the text, flags a pending translation, and the
auto-translate effect then hands exactly the payload to `handleTranslate`. -/
theorem translate_selection_trigger (payload : String) (s : AppState) :
    (jsTrim payload = "" → onTranslateSelection s payload = s) ∧
    (jsTrim payload = "" → s.pendingTranslate = false →
      (autoTranslateEffect (onTranslateSelection s payload)).2 = none) ∧
    (jsTrim payload ≠ "" →
      (onTranslateSelection s payload).sourceText = payload ∧
      (onTranslateSelection s payload).pendingTranslate = true ∧
      (autoTranslateEffect (onTranslateSelection s payload)).2 = some payload) := by
  refine ⟨?_, ?_, ?_⟩
  · intro h
    simp [onTranslateSelection, h]
  · intro h hp
    simp [onTranslateSelection, h, autoTranslateEffect, hp]
  · intro h
    have hne : payload ≠ "" := by
      intro he
      subst he
      exact h rfl
    simp [onTranslateSelection, hne, h, autoTranslateEffect]

/-- Witness for claim C3 at concrete inputs. -/
theorem translate_selection_trigger_witness :
    (autoTranslateEffect (onTranslateSelection sampleState "hello")).2 = some "hello" ∧
    onTranslateSelection sampleState "  " = sampleState ∧
    (autoTranslateEffect (onTranslateSelection sampleState "  ")).2 = none :=
  ⟨((translate_selection_trigger "hello" sampleState).2.2 (by decide)).2.2,
   (translate_selection_trigger "  " sampleState).1 (by decide),
   (translate_selection_trigger "  " sampleState).2.1 (by decide) (by decide)⟩

/-- Claim C4: when the `update_shortcut` invocation fails, the stored settings
(in particular the accelerator string) are left unchanged and an error is
reported; the accelerator string is stored only on success. -/
theorem shortcut_rebind_failure_preserves_binding (s : AppState) (str err : String) :
    (onShortcutUpdateResult s str (Except.error err)).settings = s.settings ∧
    (onShortcutUpdateResult s str (Except.error err)).error =
      some ("ショートカットの設定に失敗しました: " ++ err) ∧
    (onShortcutUpdateResult s str (Except.ok ())).settings.shortcut = str :=
  ⟨rfl, rfl, rfl⟩

/-- Claim C5: starting from a state whose displayed translation is empty (as
after the reset in `handleTranslate`), receiving any finite sequence of
`translation-chunk` events leaves the displayed translated text equal to the
concatenation of the event payloads in emission order. -/
theorem translation_chunks_concat (chunks : List String) (s : AppState)
    (h : s.translatedText = "") :
    (chunks.foldl onTranslationChunk s).translatedText =
      chunks.foldl (fun a b => a ++ b) "" := by
  have key : ∀ (l : List String) (t : AppState),
      (l.foldl onTranslationChunk t).translatedText =
        l.foldl (fun a b => a ++ b) t.translatedText := by
    intro l
    induction l with
    | nil => intro t; rfl
    | cons c cs ih =>
      intro t
      simp only [List.foldl_cons]
      rw [ih]
      rfl
  rw [key, h]

/-- Witness for claim C5: the end-to-end scenario of the spec, with streamed
tokens joining to the final text. -/
theorem translation_chunks_concat_witness :
    (["こんにちは", "、世界"].foldl onTranslationChunk sampleState).translatedText =
      "こんにちは、世界" :=
  (translation_chunks_concat ["こんにちは", "、世界"] sampleState rfl).trans (by decide)

/-- Claim C6: handling `translation-cancelled` leaves every explanation-side
state cell unchanged, handling `explanation-cancelled` leaves every
translation-side cell unchanged, the cancel callbacks touch only their own
domain's cancelling flag, and each invokes only its own domain's backend
cancel command. -/
theorem cancellation_domain_independence (s : AppState) (ok : Bool) :
    ((onTranslationCancelled s).explanationText = s.explanationText ∧
     (onTranslationCancelled s).isExplanationLoading = s.isExplanationLoading ∧
     (onTranslationCancelled s).isExplanationCancelling = s.isExplanationCancelling ∧
     (onTranslationCancelled s).explanationError = s.explanationError ∧
     (onTranslationCancelled s).isExplanationOpen = s.isExplanationOpen ∧
     (onTranslationCancelled s).explanationCache = s.explanationCache) ∧
    ((onExplanationCancelled s).translatedText = s.translatedText ∧
     (onExplanationCancelled s).isLoading = s.isLoading ∧
     (onExplanationCancelled s).isCancelling = s.isCancelling ∧
     (onExplanationCancelled s).error = s.error ∧
     (onExplanationCancelled s).sourceText = s.sourceText ∧
     (onExplanationCancelled s).history = s.history) ∧
    ((handleCancelTranslation s ok).2 = BackendCmd.cancelTranslation ∧
     (handleCancelTranslation s ok).1.isExplanationCancelling = s.isExplanationCancelling ∧
     (handleCancelTranslation s ok).1.isExplanationLoading = s.isExplanationLoading ∧
     (handleCancelTranslation s ok).1.explanationError = s.explanationError ∧
     (handleCancelTranslation s ok).1.explanationText = s.explanationText) ∧
    ((handleCancelExplanation s ok).2 = BackendCmd.cancelExplanation ∧
     (handleCancelExplanation s ok).1.isCancelling = s.isCancelling ∧
     (handleCancelExplanation s ok).1.isLoading = s.isLoading ∧
     (handleCancelExplanation s ok).1.error = s.error ∧
     (handleCancelExplanation s ok).1.translatedText = s.translatedText) := by
  cases ok <;>
    simp [onTranslationCancelled, onExplanationCancelled,
          handleCancelTranslation, handleCancelExplanation]

/-- Claim C7: every translation request issued from the UI carries exactly the
contract's input shape, namely the chosen text, the source-language hint fixed
to auto, the currently selected target language, provider, endpoint and model;
and the completion handler consumes the response as a final translated text
plus a nullable detected-language hint, the hint having no effect on the
resulting state. -/
theorem translate_request_shape (tOpt : Option String) (s : AppState)
    (req : TranslateRequest) (h : (handleTranslateStart tOpt s).2 = some req) :
    req.text = chooseTranslateText tOpt s ∧
    req.source_lang = "auto" ∧
    req.target_lang = s.settings.targetLang ∧
    req.provider = s.settings.provider ∧
    req.endpoint = s.settings.endpoint ∧
    req.model = s.settings.model ∧
    (∀ (nowMs : Nat) (text tr : String) (d : Option String),
      handleTranslateComplete nowMs text s ⟨tr, d⟩ =
        handleTranslateComplete nowMs text s ⟨tr, none⟩) := by
  by_cases hg : jsTrim (chooseTranslateText tOpt s) = ""
  · simp [handleTranslateStart, hg] at h
  · simp only [handleTranslateStart, hg, if_neg, ite_false] at h
    simp at h
    subst h
    exact ⟨rfl, rfl, rfl, rfl, rfl, rfl, fun _ _ _ _ => rfl⟩

/-- Witness for claim C7 at a concrete request. -/
theorem translate_request_shape_witness :
    (buildTranslateRequest "Hi" sampleSettings).source_lang = "auto" ∧
    (buildTranslateRequest "Hi" sampleSettings).target_lang = "Japanese" :=
  ⟨(translate_request_shape (some "Hi") sampleState
      (buildTranslateRequest "Hi" sampleSettings) (by decide)).2.1,
   ((translate_request_shape (some "Hi") sampleState
      (buildTranslateRequest "Hi" sampleSettings) (by decide)).2.2.1).trans rfl⟩

/-- Claim C8: after `addToHistory` the stored history has at most 50 entries
and the new entry is first with the previous entries following in order; and
the completion path records a translation only when the returned text trims
non-empty. -/
theorem history_bounded_and_newest_first (h : List HistoryItem) (it : HistoryItem)
    (nowMs : Nat) (text : String) (s : AppState) (resp : TranslateResponse) :
    (addToHistory h it).length ≤ 50 ∧
    addToHistory h it = it :: h.take 49 ∧
    (jsTrim resp.translated_text = "" →
      handleTranslateComplete nowMs text s resp = { s with isLoading := false }) ∧
    (jsTrim resp.translated_text ≠ "" →
      (handleTranslateComplete nowMs text s resp).history =
        addToHistory s.history
          (mkHistoryItem nowMs text resp.translated_text s.settings.targetLang)) := by
  refine ⟨?_, ?_, ?_, ?_⟩
  · simp [addToHistory]
  · simp [addToHistory, List.take_succ_cons]
  · intro he
    simp [handleTranslateComplete, he]
  · intro he
    simp [handleTranslateComplete, he]

/-- Witness for claim C8 at concrete inputs. -/
theorem history_bounded_and_newest_first_witness :
    (handleTranslateComplete 5 "src" sampleState ⟨"out", none⟩).history =
      [mkHistoryItem 5 "src" "out" "Japanese"] ∧
    handleTranslateComplete 5 "src" sampleState ⟨"", none⟩ =
      { sampleState with isLoading := false } := by
  have h1 := (history_bounded_and_newest_first sampleState.history
      (mkHistoryItem 5 "src" "out" "Japanese") 5 "src" sampleState ⟨"out", none⟩).2.2.2
      (by decide)
  have h2 := (history_bounded_and_newest_first sampleState.history
      (mkHistoryItem 5 "src" "out" "Japanese") 5 "src" sampleState ⟨"", none⟩).2.2.1
      (by decide)
  exact ⟨h1.trans (by decide), h2⟩

/-- Claim C9: requesting an explanation is idempotent per source text; when
the cached explanation's source equals the current source text,
`handleExplain` issues no second `explain` request and redisplays the cached
explanation unchanged. -/
theorem explain_cached_no_reissue (s : AppState) (c : ExplanationCache)
    (h1 : s.explanationCache = some c) (h2 : c.source = s.sourceText) :
    handleExplain s = ({ s with explanationText := c.explanation }, none) := by
  simp [handleExplain, h1, h2]

/-- Witness for claim C9 at a concrete cached state. -/
theorem explain_cached_no_reissue_witness :
    handleExplain cachedState = ({ cachedState with explanationText := "greeting" }, none) :=
  explain_cached_no_reissue cachedState ⟨"hola", "greeting"⟩ rfl rfl

/-! Lemmas for `filterEmptySections`. -/

theorem collectSection_rest_len (ls : List String) :
    (collectSection ls).2.length ≤ ls.length := by
  induction ls with
  | nil => simp [collectSection]
  | cons l ls ih =>
    by_cases hl : isHeading l = true
    · simp [collectSection, hl]
    · simp only [collectSection, hl]
      simp only [Bool.false_eq_true, if_false]
      simp only [List.length_cons]
      omega

theorem lenZero_or_all {α : Type} (l : List α) (p : α → Bool) :
    ((l.length == 0) || l.all p) = l.all p := by
  cases l <;> simp

theorem sectionsOf_collect (ls : List String) :
    (sectionsOf ls).1 = (collectSection ls).1 ∧
    (sectionsOf ls).2 = (sectionsOf (collectSection ls).2).2 ∧
    ((collectSection ls).2 = [] ∨ (sectionsOf (collectSection ls).2).1 = []) := by
  induction ls with
  | nil => exact ⟨rfl, rfl, Or.inl rfl⟩
  | cons l ls ih =>
    by_cases hl : isHeading l = true
    · refine ⟨?_, ?_, ?_⟩
      · simp [sectionsOf, collectSection, hl]
      · simp [collectSection, hl]
      · right; simp [collectSection, sectionsOf, hl]
    · obtain ⟨ih1, ih2, ih3⟩ := ih
      refine ⟨?_, ?_, ?_⟩
      · simp [sectionsOf, collectSection, hl, ih1]
      · simp only [sectionsOf, collectSection, hl]
        simp only [Bool.false_eq_true, if_false]
        exact ih2
      · simp only [collectSection, hl]
        simp only [Bool.false_eq_true, if_false]
        exact ih3

theorem filterLoop_eq_keep (n : Nat) :
    ∀ lines : List String, lines.length ≤ n → filterLoop n lines = keepSections lines := by
  induction n with
  | zero =>
    intro lines hn
    have : lines = [] := List.eq_nil_of_length_eq_zero (Nat.le_zero.mp hn)
    subst this
    rfl
  | succ m ih =>
    intro lines hn
    cases lines with
    | nil => rfl
    | cons l ls =>
      simp only [List.length_cons, Nat.succ_le_succ_iff] at hn
      by_cases hl : isHeading l = true
      · obtain ⟨b1, b2, b3⟩ := sectionsOf_collect ls
        have hrest : (collectSection ls).2.length ≤ m :=
          Nat.le_trans (collectSection_rest_len ls) hn
        have hloop := ih (collectSection ls).2 hrest
        simp only [filterLoop, hl, if_true]
        rw [hloop]
        simp only [keepSections, sectionsOf, hl, if_true]
        rw [lenZero_or_all]
        simp only [List.map_cons, List.flatten_cons, List.nil_append]
        rw [b1, b2]
        cases b3 with
        | inl hnil =>
          rw [hnil]
          simp [keepSec, sectionsOf, sectionRemovable]
        | inr hpre =>
          simp [keepSections, keepSec, sectionRemovable, hpre]
      · simp only [filterLoop, hl]
        simp only [Bool.false_eq_true, if_false]
        rw [ih ls hn]
        simp only [keepSections, sectionsOf, hl]
        simp only [Bool.false_eq_true, if_false]
        simp

/-- Claim C10, counterexample to the claim as stated: on the input consisting
of a blank line followed by a content line (and no `##` heading at all), every
line should be preserved in order, so the output would be the input unchanged;
the code's final trim drops the leading blank line. -/
theorem filterEmptySections_counterexample :
    filterEmptySections "\nabc" = "abc" ∧
    keepSections (splitNL "\nabc") = ["", "abc"] ∧
    filterEmptySections "\nabc" ≠ joinNL (keepSections (splitNL "\nabc")) := by
  refine ⟨by decide, by decide, ?_⟩
  decide

/-- Claim C10 as amended: `filterEmptySections` removes exactly the
`##`-headed sections whose non-blank content lines all match the
not-applicable patterns (or that have no non-blank content) and preserves
every other line in original order, except that the joined result is finally
trimmed of leading and trailing whitespace. -/
theorem filterEmptySections_spec (md : String) :
    filterEmptySections md = jsTrim (joinNL (keepSections (splitNL md))) := by
  simp only [filterEmptySections]
  rw [filterLoop_eq_keep (splitNL md).length (splitNL md) (Nat.le_refl _)]
